import Mathlib

/-!
Shallow embedding of the COCO-JSON-to-YOLO segmentation converter and splitter.

The repository contains two notebook converters:
* the "splitter" notebook (`coco_to_yolo` with `split_dataset` and
  `create_directory_structure`), which partitions images into train/valid/test
  and writes one label file per image, copying source images; and
* the simpler single-directory notebook converter (`coco_to_yolo` without
  splitting).

Python floats are modelled as exact rationals (`ℚ`), Python `int()` as
truncation toward zero, Python list slicing with its index clamping, Python
dicts as insertion-ordered association lists with last-wins value update, and
the filesystem side effects of a run as an explicit effect trace.
-/

namespace Coco

/-- Python `int(q)`: truncation toward zero of a rational. -/
def pyInt (q : ℚ) : ℤ := if q < 0 then ⌈q⌉ else ⌊q⌋

/-- Resolve a Python slice index against a list of length `n`:
negative indices count from the end, and indices are clamped to `[0, n]`. -/
def pyIdx (n : ℕ) (i : ℤ) : ℕ := if i < 0 then ((n : ℤ) + i).toNat else min n i.toNat

/-- Python `l[:b]`. -/
def pySliceTo (b : ℤ) (l : List α) : List α := l.take (pyIdx l.length b)

/-- Python `l[a:]`. -/
def pySliceFrom (a : ℤ) (l : List α) : List α := l.drop (pyIdx l.length a)

/-- Python `l[a:b]`. -/
def pySlice (a b : ℤ) (l : List α) : List α :=
  (l.take (pyIdx l.length b)).drop (pyIdx l.length a)

/-- Swap the entries at positions `i` and `j` of a list (used to model the
in-place swaps `x[i], x[j] = x[j], x[i]` of `random.shuffle`). -/
def swapIdx (i j : ℕ) (l : List α) : List α :=
  match l[i]?, l[j]? with
  | some a, some b => (l.set i b).set j a
  | _, _ => l

/-- One pass of the Fisher–Yates loop of `random.shuffle`, from index `i`
down to 1: `j = randbelow(i+1); swap x[i] x[j]`.  The random source is
modelled as a stream `rand : ℕ → ℕ`; `randbelow (i+1)` is `rand i % (i+1)`. -/
def shuffleAux (rand : ℕ → ℕ) : ℕ → List α → List α
  | 0, l => l
  | Nat.succ i, l => shuffleAux rand i (swapIdx (i + 1) (rand (i + 1) % (i + 2)) l)

/-- `random.shuffle(x)`: Fisher–Yates over the whole list. -/
def pyShuffle (rand : ℕ → ℕ) (l : List α) : List α :=
  shuffleAux rand (l.length - 1) l

/-- Deterministic stream of pseudo-random numbers derived from `seed`,
standing in for Python's Mersenne-Twister generator after `random.seed(seed)`:
the generator is a pure function of the seed, which is all the development
relies on.  Modelled as a linear-congruential mix of seed and step. -/
def randStream (seed : ℤ) (i : ℕ) : ℕ :=
  ((seed.natAbs + 1) * 6364136223846793005 + i * 1442695040888963407) % 2 ^ 64

/-- Python `list.copy()`: a fresh list with the same elements. -/
def listCopy (l : List ℤ) : List ℤ := l

instance {ε α : Type _} [DecidableEq ε] [DecidableEq α] :
    DecidableEq (Except ε α) := fun x y =>
  match x, y with
  | .ok a, .ok b =>
    match decEq a b with
    | isTrue h => isTrue (by rw [h])
    | isFalse h => isFalse (fun hh => h (Except.ok.inj hh))
  | .error e, .error e' =>
    match decEq e e' with
    | isTrue h => isTrue (by rw [h])
    | isFalse h => isFalse (fun hh => h (Except.error.inj hh))
  | .ok _, .error _ => isFalse (fun hh => Except.noConfusion hh)
  | .error _, .ok _ => isFalse (fun hh => Except.noConfusion hh)

/-- `split_dataset(image_ids, train_ratio, val_ratio, test_ratio)` from the
splitter notebook, with the random source made explicit.  Returns
`.error` where the Python code raises `ValueError`. -/
def split_dataset (rand : ℕ → ℕ) (image_ids : List ℤ)
    (train_ratio val_ratio test_ratio : ℚ) :
    Except String (List ℤ × List ℤ × List ℤ) :=
  if ¬ (999/1000 ≤ train_ratio + val_ratio + test_ratio ∧
        train_ratio + val_ratio + test_ratio ≤ 1001/1000) then
    .error "Split ratios must sum to 1"
  else
    let shuffled_ids := pyShuffle rand (listCopy image_ids)
    let total : ℕ := shuffled_ids.length
    let train_end : ℤ := pyInt (total * train_ratio)
    let val_end : ℤ := pyInt (total * (train_ratio + val_ratio))
    let train_ids := pySliceTo train_end shuffled_ids
    let val_ids := pySlice train_end val_end shuffled_ids
    let test_ids := if test_ratio > 0 then pySliceFrom val_end shuffled_ids else []
    .ok (train_ids, val_ids, test_ids)

/-- `split_dataset` as called by `coco_to_yolo`, whose `random.seed(seed)`
fixes the random stream. -/
def split_dataset_seeded (seed : ℤ) (image_ids : List ℤ)
    (train_ratio val_ratio test_ratio : ℚ) :
    Except String (List ℤ × List ℤ × List ℤ) :=
  split_dataset (randStream seed) image_ids train_ratio val_ratio test_ratio

/-- A COCO category record: `{cat['id'], cat['name']}`. -/
structure Category where
  id : ℤ
  name : String
deriving DecidableEq, Repr

/-- A COCO image record: `{img['id'], img['file_name'], img['width'],
img['height']}`. -/
structure Image where
  id : ℤ
  file_name : String
  width : ℚ
  height : ℚ
deriving DecidableEq, Repr

/-- A COCO annotation record.  `segmentation = []` models both an absent key
and an empty list (both falsy in the Python condition
`'segmentation' in ann and ann['segmentation']`); `bbox = none` models an
absent `'bbox'` key; `iscrowd` is `ann.get('iscrowd', 0)`. -/
structure Annotation where
  id : ℤ
  image_id : ℤ
  category_id : ℤ
  segmentation : List (List ℚ)
  bbox : Option (ℚ × ℚ × ℚ × ℚ)
  iscrowd : ℕ
deriving DecidableEq, Repr

/-- The parsed COCO JSON document: `coco_data['categories']`,
`coco_data['images']`, `coco_data['annotations']`. -/
structure CocoData where
  categories : List Category
  images : List Image
  annotations : List Annotation
deriving DecidableEq, Repr

/-- Python dict assignment `d[k] = v` on an insertion-ordered dict: a
re-assigned key keeps its original position but takes the new value; a new
key is appended at the end. -/
def dinsert (k : ℤ) (v : β) : List (ℤ × β) → List (ℤ × β)
  | [] => [(k, v)]
  | (k', v') :: rest => if k = k' then (k, v) :: rest else (k', v') :: dinsert k v rest

/-- Python dict lookup `d[k]`; `none` models a `KeyError`. -/
def dget? (k : ℤ) : List (ℤ × β) → Option β
  | [] => none
  | (k', v) :: rest => if k = k' then some v else dget? k rest

/-- Python `d.keys()` in insertion order. -/
def dkeys (d : List (ℤ × β)) : List ℤ := d.map Prod.fst

/-- `{cat['id']: idx for idx, cat in enumerate(categories)}`.  A duplicate
category id silently overwrites the earlier index (dict-comprehension
semantics); the source raises no error for empty or duplicated categories. -/
def category_id_to_index (categories : List Category) : List (ℤ × ℕ) :=
  categories.enum.foldl (fun d p => dinsert p.2.id p.1 d) []

/-- `{cat['id']: cat['name'] for cat in categories}`. -/
def category_id_to_name (categories : List Category) : List (ℤ × String) :=
  categories.foldl (fun d cat => dinsert cat.id cat.name d) []

/-- `{img['id']: img for img in images}`. -/
def image_id_to_info (images : List Image) : List (ℤ × Image) :=
  images.foldl (fun d img => dinsert img.id img d) []

/-- Grouping of annotations by `image_id`, in encounter order, as built by
the `for ann in annotations` loop of both converters. -/
def image_to_annotations (annotations : List Annotation) : List (ℤ × List Annotation) :=
  annotations.foldl
    (fun d ann => dinsert ann.image_id ((dget? ann.image_id d).getD [] ++ [ann]) d) []

/-- One line of a YOLO label file: either a segmentation line
(`class_index` followed by normalized polygon coordinates) or a bounding-box
line (`class_index x_center y_center w_norm h_norm`). -/
inductive LabelLine
  | seg (class_index : ℕ) (coords : List ℚ)
  | box (class_index : ℕ) (x_center y_center w_norm h_norm : ℚ)
deriving DecidableEq, Repr

/-- The loop `for i in range(0, len(seg), 2): x = seg[i]/width;
y = seg[i+1]/height`.  A trailing unpaired coordinate raises an
`IndexError` in Python, modelled as `.error`. -/
def normalizePoly (image_width image_height : ℚ) : List ℚ → Except String (List ℚ)
  | [] => .ok []
  | [_] => .error "IndexError: list index out of range"
  | x :: y :: rest =>
    (normalizePoly image_width image_height rest).map
      (fun c => x / image_width :: y / image_height :: c)

/-- The segmentation branch of the splitter notebook's `coco_to_yolo`: one
label line is written **per polygon**, each carrying that polygon's
normalized coordinates.  Lines written before a failing polygon stay
written (Python writes incrementally), so the result pairs the emitted
lines with an optional error. -/
def segLinesSplit (class_index : ℕ) (image_width image_height : ℚ) :
    List (List ℚ) → List LabelLine × Option String
  | [] => ([], none)
  | p :: ps =>
    match normalizePoly image_width image_height p with
    | .error e => ([], some e)
    | .ok cs =>
      let rest := segLinesSplit class_index image_width image_height ps
      (LabelLine.seg class_index cs :: rest.1, rest.2)

/-- Geometry normalization of one annotation in the splitter notebook
(`coco_to_yolo` lines 177–197): the class index is looked up first (a
missing category id is a `KeyError` even for an annotation without
geometry); a non-empty non-crowd segmentation yields one line per polygon;
otherwise a present bbox yields one box line; otherwise no line. -/
def annotationLines (catIdx : List (ℤ × ℕ)) (image_width image_height : ℚ)
    (ann : Annotation) : List LabelLine × Option String :=
  match dget? ann.category_id catIdx with
  | none => ([], some "KeyError: category_id")
  | some class_index =>
    if ann.segmentation ≠ [] ∧ ann.iscrowd = 0 then
      segLinesSplit class_index image_width image_height ann.segmentation
    else
      match ann.bbox with
      | some (x_min, y_min, w, h) =>
        ([LabelLine.box class_index ((x_min + w / 2) / image_width)
            ((y_min + h / 2) / image_height) (w / image_width) (h / image_height)], none)
      | none => ([], none)

/-- The `coords` accumulation loop of the simpler notebook: normalize each
polygon in turn and extend one flat coordinate list
(`coords.extend(normalized_seg)`). -/
def segCoordsAll (image_width image_height : ℚ) :
    List (List ℚ) → Except String (List ℚ)
  | [] => .ok []
  | p :: ps =>
    match normalizePoly image_width image_height p with
    | .error e => .error e
    | .ok cs => (segCoordsAll image_width image_height ps).map (fun rest => cs ++ rest)

/-- Geometry normalization of one annotation in the simpler single-directory
notebook: all polygons of the annotation are concatenated into **one**
segmentation line (`coords.extend(normalized_seg)` then a single write). -/
def annotationLinesSimple (catIdx : List (ℤ × ℕ)) (image_width image_height : ℚ)
    (ann : Annotation) : List LabelLine × Option String :=
  match dget? ann.category_id catIdx with
  | none => ([], some "KeyError: category_id")
  | some class_index =>
    if ann.segmentation ≠ [] ∧ ann.iscrowd = 0 then
      match segCoordsAll image_width image_height ann.segmentation with
      | .error e => ([], some e)
      | .ok coords => ([LabelLine.seg class_index coords], none)
    else
      match ann.bbox with
      | some (x_min, y_min, w, h) =>
        ([LabelLine.box class_index ((x_min + w / 2) / image_width)
            ((y_min + h / 2) / image_height) (w / image_width) (h / image_height)], none)
      | none => ([], none)

/-- The `data.yaml` manifest: split paths (`test` only when `test_ratio > 0`
in the splitter notebook), class count `nc` and class `names`. -/
structure Manifest where
  train : String
  val : String
  test : Option String
  nc : ℕ
  names : List String
deriving DecidableEq, Repr

/-- A filesystem side effect of a conversion run, relative to the output
directory. -/
inductive Effect
  | mkdir (split subdir : String)
  | copyImage (split file : String)
  | writeLabel (split : String) (image_id : ℤ) (file : String) (lines : List LabelLine)
  | writeYaml (m : Manifest)
deriving DecidableEq, Repr

/-- `create_directory_structure(base_dir)`: unconditionally creates
`images/` and `labels/` under each of `train`, `valid` **and** `test`. -/
def create_directory_structure : List Effect :=
  [.mkdir "train" "images", .mkdir "train" "labels",
   .mkdir "valid" "images", .mkdir "valid" "labels",
   .mkdir "test" "images", .mkdir "test" "labels"]

/-- `os.path.splitext(s)[0]`: everything before the last dot (the whole name
when there is no dot; the leading-dot special case of hidden files is not
modelled, as no claim touches it). -/
def splitextBase (s : String) : String :=
  let cs := s.data
  if cs.contains '.' then
    String.mk (cs.take (cs.length - 1 - List.indexOf '.' cs.reverse))
  else s

/-- `os.path.splitext(file_name)[0] + '.txt'`. -/
def labelFileName (s : String) : String := splitextBase s ++ ".txt"

/-- Mutable state of a conversion run: effects performed so far (in order)
and the `missing_images` / `copied_images` accumulators. -/
structure RunState where
  effects : List Effect
  missing_images : List String
  copied_images : List String
deriving DecidableEq, Repr

/-- The label lines of one image's label file: annotations in their grouped
order, each contributing its lines; a failing annotation keeps the lines
already written and stops with the error (the file is partially written). -/
def imageLabelLines (catIdx : List (ℤ × ℕ)) (image_width image_height : ℚ) :
    List Annotation → List LabelLine × Option String
  | [] => ([], none)
  | ann :: rest =>
    let r := annotationLines catIdx image_width image_height ann
    match r.2 with
    | some e => (r.1, some e)
    | none =>
      let more := imageLabelLines catIdx image_width image_height rest
      (r.1 ++ more.1, more.2)

/-- The body of the per-image loop of the splitter's `coco_to_yolo`: resolve
image metadata (`KeyError` if unknown), copy the source image unless missing
(missing ⇒ record and skip the label entirely) or already copied, then write
the label file. -/
def processImage (catIdx : List (ℤ × ℕ)) (imgInfo : List (ℤ × Image))
    (groups : List (ℤ × List Annotation)) (fs : List String) (split : String)
    (st : RunState) (image_id : ℤ) : RunState × Option String :=
  match dget? image_id imgInfo with
  | none => (st, some "KeyError: image_id")
  | some info =>
    if info.file_name ∈ fs then
      let st1 :=
        if Effect.copyImage split info.file_name ∈ st.effects then st
        else { st with
                effects := st.effects ++ [Effect.copyImage split info.file_name],
                copied_images := st.copied_images ++ [info.file_name] }
      match dget? image_id groups with
      | none => (st1, some "KeyError: image_to_annotations")
      | some anns =>
        let lab := imageLabelLines catIdx info.width info.height anns
        ({ st1 with
            effects := st1.effects ++
              [Effect.writeLabel split image_id (labelFileName info.file_name) lab.1] },
          lab.2)
    else
      ({ st with missing_images := st.missing_images ++ [info.file_name] }, none)

/-- Process the images of one split in partition order; an error aborts the
run (Python exception propagation). -/
def processImages (catIdx : List (ℤ × ℕ)) (imgInfo : List (ℤ × Image))
    (groups : List (ℤ × List Annotation)) (fs : List String) (split : String) :
    List ℤ → RunState → RunState × Option String
  | [], st => (st, none)
  | image_id :: ids, st =>
    let r := processImage catIdx imgInfo groups fs split st image_id
    match r.2 with
    | some e => (r.1, some e)
    | none => processImages catIdx imgInfo groups fs split ids r.1

/-- The `for split_name, split_ids in splits.items()` loop, skipping empty
splits (`if not split_ids: continue`). -/
def processSplits (catIdx : List (ℤ × ℕ)) (imgInfo : List (ℤ × Image))
    (groups : List (ℤ × List Annotation)) (fs : List String) :
    List (String × List ℤ) → RunState → RunState × Option String
  | [], st => (st, none)
  | (split_name, split_ids) :: rest, st =>
    if split_ids = [] then processSplits catIdx imgInfo groups fs rest st
    else
      let r := processImages catIdx imgInfo groups fs split_name split_ids st
      match r.2 with
      | some e => (r.1, some e)
      | none => processSplits catIdx imgInfo groups fs rest r.1

/-- The splitter notebook's `coco_to_yolo`, as an effect-trace function of
the parsed COCO document and an abstract source-image directory `fs` (the
set of file names present in `image_dir`).  Returns the final state and
either `.ok ()` or the error that aborted the run. -/
def coco_to_yolo (fs : List String) (coco : CocoData)
    (train_ratio val_ratio test_ratio : ℚ) (seed : ℤ) :
    RunState × Except String Unit :=
  let catIdx := category_id_to_index coco.categories
  let imgInfo := image_id_to_info coco.images
  let groups := image_to_annotations coco.annotations
  let st0 : RunState :=
    { effects := create_directory_structure, missing_images := [], copied_images := [] }
  let all_image_ids := dkeys groups
  match split_dataset (randStream seed) all_image_ids train_ratio val_ratio test_ratio with
  | .error e => (st0, .error e)
  | .ok (train_ids, val_ids, test_ids) =>
    let splits := [("train", train_ids), ("valid", val_ids), ("test", test_ids)]
    match processSplits catIdx imgInfo groups fs splits st0 with
    | (st, some e) => (st, .error e)
    | (st, none) =>
      let manifest : Manifest :=
        { train := "./train/images"
          val := "./valid/images"
          test := if test_ratio > 0 then some "./test/images" else none
          nc := coco.categories.length
          names := coco.categories.map Category.name }
      ({ st with effects := st.effects ++ [Effect.writeYaml manifest] }, .ok ())

/-! A small heap of Python list objects, making mutation and aliasing
explicit: a reference is an index into the store, `random.shuffle` mutates
the referenced cell in place, and `image_ids.copy()` allocates a fresh
cell.  `split_dataset` is re-expressed over this heap so that its effect on
the caller's list is a theorem about the heap, not a by-construction
triviality. -/

/-- Store of list objects; a reference is an index. -/
abbrev Heap := List (List ℤ)

/-- Dereference `r` in the heap. -/
def heapGet (h : Heap) (r : ℕ) : List ℤ := h.getD r []

/-- `image_ids.copy()`: allocate a fresh cell holding the same elements and
return its reference. -/
def heapCopy (h : Heap) (r : ℕ) : Heap × ℕ := (h ++ [heapGet h r], h.length)

/-- `random.shuffle(x)`: in-place permutation of the cell `r` points to. -/
def heapShuffle (rand : ℕ → ℕ) (h : Heap) (r : ℕ) : Heap :=
  h.set r (pyShuffle rand (heapGet h r))

/-- `split_dataset` over the heap: the argument is a reference to the
caller's list; `shuffled_ids = image_ids.copy()` allocates, the shuffle
mutates the copy, and the three splits are slices of the copy.  Returns the
post-call heap together with the result. -/
def split_dataset_ref (rand : ℕ → ℕ) (h : Heap) (r : ℕ)
    (train_ratio val_ratio test_ratio : ℚ) :
    Heap × Except String (List ℤ × List ℤ × List ℤ) :=
  if ¬ (999/1000 ≤ train_ratio + val_ratio + test_ratio ∧
        train_ratio + val_ratio + test_ratio ≤ 1001/1000) then
    (h, .error "Split ratios must sum to 1")
  else
    let hc := heapCopy h r
    let h1 := heapShuffle rand hc.1 hc.2
    let shuffled_ids := heapGet h1 hc.2
    let total : ℕ := shuffled_ids.length
    let train_end : ℤ := pyInt (total * train_ratio)
    let val_end : ℤ := pyInt (total * (train_ratio + val_ratio))
    let train_ids := pySliceTo train_end shuffled_ids
    let val_ids := pySlice train_end val_end shuffled_ids
    let test_ids := if test_ratio > 0 then pySliceFrom val_end shuffled_ids else []
    (h1, .ok (train_ids, val_ids, test_ids))

/-- The value `normalizePoly` computes on a well-formed (even-length)
polygon: consecutive pairs normalized by width and height. -/
def normPolyPure (image_width image_height : ℚ) : List ℚ → List ℚ
  | x :: y :: rest => x / image_width :: y / image_height :: normPolyPure image_width image_height rest
  | _ => []

/-- The data-model invariant of the spec (§3): every annotation's
`image_id` resolves to a listed image, its `category_id` to a listed
category, and every segmentation polygon has evenly many coordinates. -/
def WellFormed (coco : CocoData) : Prop :=
  ∀ ann ∈ coco.annotations,
    (∃ img ∈ coco.images, img.id = ann.image_id) ∧
    (∃ c ∈ coco.categories, c.id = ann.category_id) ∧
    ∀ p ∈ ann.segmentation, Even p.length

instance (coco : CocoData) : Decidable (WellFormed coco) := by
  unfold WellFormed; infer_instance

/-- Concrete two-polygon annotation used to exhibit the per-polygon
line-splitting of the splitter notebook. -/
def twoPolyAnn : Annotation :=
  { id := 9, image_id := 5, category_id := 1,
    segmentation := [[0, 0, 2, 0], [0, 0, 1, 1]], bbox := none, iscrowd := 0 }

/-- Category dictionary with the single category id 1 at class index 0. -/
def oneCatIdx : List (ℤ × ℕ) := [(1, 0)]

/-- COCO document whose only annotation references the unknown image id 5. -/
def danglingCoco : CocoData :=
  { categories := [{ id := 1, name := "c" }], images := [],
    annotations := [{ id := 1, image_id := 5, category_id := 1,
                      segmentation := [], bbox := some (0, 0, 2, 2), iscrowd := 0 }] }

/-- Well-formed one-image COCO document (image 5, one bbox annotation). -/
def oneImageCoco : CocoData :=
  { categories := [{ id := 1, name := "c" }],
    images := [{ id := 5, file_name := "a.jpg", width := 2, height := 2 }],
    annotations := [{ id := 1, image_id := 5, category_id := 1,
                      segmentation := [], bbox := some (0, 0, 2, 2), iscrowd := 0 }] }

/-- An image id is processable without a fatal lookup error: its metadata
resolves, and — when its source file exists, so that labels are written —
its annotation group resolves and every grouped annotation has a resolvable
category id and even-length polygons. -/
def goodId (catIdx : List (ℤ × ℕ)) (imgInfo : List (ℤ × Image))
    (groups : List (ℤ × List Annotation)) (fs : List String) (image_id : ℤ) :
    Prop :=
  ∃ info, dget? image_id imgInfo = some info ∧
    (info.file_name ∈ fs →
      ∃ anns, dget? image_id groups = some anns ∧
        ∀ a ∈ anns, (∃ ci, dget? a.category_id catIdx = some ci) ∧
          ∀ p ∈ a.segmentation, Even p.length)

/-- The effect was produced while processing one of the given (non-empty)
splits: an image copy into that split, or a label write into that split
tagged with an image id of that split. -/
def effectFromSplit (splits : List (String × List ℤ)) (e : Effect) : Prop :=
  ∃ p ∈ splits, p.2 ≠ [] ∧
    ((∃ f, e = Effect.copyImage p.1 f) ∨
      ∃ i f L, i ∈ p.2 ∧ e = Effect.writeLabel p.1 i f L)

/-! ### The Fisher–Yates shuffle permutes its input -/

theorem set_cons_perm (a : α) :
    ∀ (t : List α) (m : ℕ) (b : α), t[m]? = some b →
      List.Perm (a :: t) (b :: t.set m a)
  | x :: t', 0, b, h => by
    obtain rfl : x = b := by simpa using h
    simpa using List.Perm.swap x a t'
  | x :: t', m + 1, b, h => by
    have ih := set_cons_perm a t' m b (by simpa using h)
    have step1 : List.Perm (a :: x :: t') (x :: a :: t') := List.Perm.swap x a t'
    have step2 : List.Perm (x :: a :: t') (x :: b :: t'.set m a) := ih.cons x
    have step3 : List.Perm (x :: b :: t'.set m a) (b :: x :: t'.set m a) :=
      List.Perm.swap b x _
    simpa using (step1.trans step2).trans step3
  | [], m, b, h => by simp at h

theorem setset_perm :
    ∀ (l : List α) (i j : ℕ) (a b : α), l[i]? = some a → l[j]? = some b →
      List.Perm ((l.set i b).set j a) l
  | [], _, _, _, _, hi, _ => by simp at hi
  | x :: t, 0, 0, a, b, hi, hj => by
    have h1 : x = a := by simpa using hi
    have h2 : x = b := by simpa using hj
    subst h1; subst h2
    simp
  | x :: t, 0, j + 1, a, b, hi, hj => by
    have h1 : x = a := by simpa using hi
    subst h1
    simpa using (set_cons_perm x t j b (by simpa using hj)).symm
  | x :: t, i + 1, 0, a, b, hi, hj => by
    have h1 : x = b := by simpa using hj
    subst h1
    simpa using (set_cons_perm x t i a (by simpa using hi)).symm
  | x :: t, i + 1, j + 1, a, b, hi, hj => by
    simpa using (setset_perm t i j a b (by simpa using hi) (by simpa using hj)).cons x

theorem swapIdx_perm (i j : ℕ) (l : List α) : List.Perm (swapIdx i j l) l := by
  unfold swapIdx
  split
  · next a b hi hj => exact setset_perm l i j a b hi hj
  · exact List.Perm.refl l

theorem shuffleAux_perm (rand : ℕ → ℕ) :
    ∀ (n : ℕ) (l : List α), List.Perm (shuffleAux rand n l) l
  | 0, l => List.Perm.refl l
  | n + 1, l =>
    (shuffleAux_perm rand n _).trans (swapIdx_perm _ _ l)

theorem pyShuffle_perm (rand : ℕ → ℕ) (l : List α) : List.Perm (pyShuffle rand l) l :=
  shuffleAux_perm rand _ l

theorem pyShuffle_length (rand : ℕ → ℕ) (l : List α) :
    (pyShuffle rand l).length = l.length :=
  (pyShuffle_perm rand l).length_eq

/-! ### Slicing and truncation lemmas -/

theorem take_min (l : List α) (i : ℕ) : l.take (min l.length i) = l.take i := by
  rcases le_total i l.length with h | h
  · rw [min_eq_right h]
  · rw [min_eq_left h, List.take_length, List.take_of_length_le h]

theorem drop_min_of_le (xs : List α) (m i : ℕ) (h : xs.length ≤ m) :
    xs.drop (min m i) = xs.drop i := by
  rcases le_total i m with h' | h'
  · rw [min_eq_right h']
  · rw [min_eq_left h', List.drop_eq_nil_of_le h, List.drop_eq_nil_of_le (le_trans h h')]

theorem take_drop_partition (l : List α) (a b : ℕ) (h : a ≤ b) :
    l.take a ++ ((l.take b).drop a ++ l.drop b) = l := by
  have h1 : (l.take b).take a = l.take a := by rw [List.take_take, min_eq_left h]
  calc l.take a ++ ((l.take b).drop a ++ l.drop b)
      = ((l.take b).take a ++ (l.take b).drop a) ++ l.drop b := by
        rw [h1, List.append_assoc]
    _ = l.take b ++ l.drop b := by rw [List.take_append_drop]
    _ = l := List.take_append_drop b l

theorem pyInt_of_nonneg {q : ℚ} (h : 0 ≤ q) : pyInt q = ⌊q⌋ := if_neg (not_lt.2 h)

theorem pyInt_nonneg {q : ℚ} (h : 0 ≤ q) : 0 ≤ pyInt q := by
  rw [pyInt_of_nonneg h]; exact Int.floor_nonneg.mpr h

theorem pyInt_mono {p q : ℚ} (hp : 0 ≤ p) (h : p ≤ q) : pyInt p ≤ pyInt q := by
  rw [pyInt_of_nonneg hp, pyInt_of_nonneg (hp.trans h)]
  exact Int.floor_le_floor h

theorem pyIdx_of_nonneg {i : ℤ} (h : 0 ≤ i) (n : ℕ) : pyIdx n i = min n i.toNat :=
  if_neg (not_lt.2 h)

theorem pySliceTo_of_nonneg {b : ℤ} (h : 0 ≤ b) (l : List α) :
    pySliceTo b l = l.take b.toNat := by
  rw [pySliceTo, pyIdx_of_nonneg h, take_min]

theorem pySliceFrom_of_nonneg {a : ℤ} (h : 0 ≤ a) (l : List α) :
    pySliceFrom a l = l.drop a.toNat := by
  rw [pySliceFrom, pyIdx_of_nonneg h, drop_min_of_le l l.length a.toNat le_rfl]

theorem pySlice_of_nonneg {a b : ℤ} (ha : 0 ≤ a) (hb : 0 ≤ b) (l : List α) :
    pySlice a b l = (l.take b.toNat).drop a.toNat := by
  rw [pySlice, pyIdx_of_nonneg ha, pyIdx_of_nonneg hb, take_min,
      drop_min_of_le _ l.length _ (by simp [List.length_take])]

/-! ### The Split Partitioner -/

/-- C2 (amended).  With nonnegative ratios summing to within 0.001 of 1 and
a **strictly positive** `test_ratio`, a successful `split_dataset` returns
three groups that together are a permutation of the input image ids (no
duplicates, no omissions) and, for duplicate-free input, are pairwise
disjoint.  (With `test_ratio = 0` the claim fails: ids beyond
`int(total*(train_ratio+val_ratio))` in the shuffled order are dropped, see
the counterexample.) -/
theorem split_dataset_partition {rand : ℕ → ℕ} {image_ids tr va ts : List ℤ}
    {train_ratio val_ratio test_ratio : ℚ}
    (ht : 0 ≤ train_ratio) (hv : 0 ≤ val_ratio) (hte : 0 < test_ratio)
    (h : split_dataset rand image_ids train_ratio val_ratio test_ratio =
      .ok (tr, va, ts)) :
    List.Perm (tr ++ va ++ ts) image_ids ∧
    (image_ids.Nodup →
      tr.Disjoint va ∧ tr.Disjoint ts ∧ va.Disjoint ts) := by
  unfold split_dataset at h
  split at h
  · exact absurd h (by simp)
  · simp only [listCopy, Except.ok.injEq, Prod.mk.injEq] at h
    obtain ⟨h1, h2, h3⟩ := h
    set l := pyShuffle rand image_ids with hl
    have hta : (0:ℚ) ≤ (l.length : ℚ) * train_ratio :=
      mul_nonneg (by positivity) ht
    have htb : (0:ℚ) ≤ (l.length : ℚ) * (train_ratio + val_ratio) :=
      mul_nonneg (by positivity) (add_nonneg ht hv)
    have hmono : pyInt ((l.length : ℚ) * train_ratio) ≤
        pyInt ((l.length : ℚ) * (train_ratio + val_ratio)) :=
      pyInt_mono hta
        (mul_le_mul_of_nonneg_left (le_add_of_nonneg_right hv) (by positivity))
    have hab : (pyInt ((l.length : ℚ) * train_ratio)).toNat ≤
        (pyInt ((l.length : ℚ) * (train_ratio + val_ratio))).toNat :=
      Int.toNat_le_toNat hmono
    rw [pySliceTo_of_nonneg (pyInt_nonneg hta)] at h1
    rw [pySlice_of_nonneg (pyInt_nonneg hta) (pyInt_nonneg htb)] at h2
    rw [pySliceFrom_of_nonneg (pyInt_nonneg htb)] at h3
    have hcat : tr ++ va ++ ts = l := by
      rw [← h1, ← h2, ← h3, List.append_assoc]
      exact take_drop_partition l _ _ hab
    have hperm : List.Perm (tr ++ va ++ ts) image_ids := by
      rw [hcat]; exact pyShuffle_perm rand image_ids
    refine ⟨hperm, fun hnd => ?_⟩
    have hnodup : (tr ++ (va ++ ts)).Nodup := by
      rw [← List.append_assoc]
      exact hperm.nodup_iff.mpr hnd
    obtain ⟨-, hvt, hdisj⟩ := List.nodup_append.mp hnodup
    obtain ⟨-, -, hvats⟩ := List.nodup_append.mp hvt
    rw [List.disjoint_append_right] at hdisj
    exact ⟨hdisj.1, hdisj.2, hvats⟩

/-- Witness for the amended C2 at a concrete input: ratios (1/2, 1/4, 1/4)
on the two-element id list [3, 8]. -/
theorem split_dataset_partition_witness :
    List.Perm ([(8:ℤ)] ++ [] ++ [3]) [3, 8] ∧
    (List.Disjoint [(8:ℤ)] [] ∧ List.Disjoint [(8:ℤ)] [3] ∧
      List.Disjoint ([] : List ℤ) [3]) := by
  have h := @split_dataset_partition (fun _ => 0) [3, 8] [8] [] [3]
    (1/2) (1/4) (1/4) (by norm_num) (by norm_num) (by norm_num)
    (by norm_num [split_dataset, listCopy, pyShuffle, shuffleAux, swapIdx,
      pyInt, pySliceTo, pySliceFrom, pySlice, pyIdx])
  exact ⟨h.1, h.2 (by decide)⟩

/-- Counterexample to C2 as stated: with ratios (0, 0.999, 0) — a triple
whose sum is within 0.001 of 1 and whose `test_ratio` is 0 — the singleton
input [7] is split into three empty groups, so id 7 is omitted. -/
theorem split_dataset_partition_counterexample :
    split_dataset_seeded 42 [7] 0 (999/1000) 0 = .ok ([], [], []) ∧
    (7:ℤ) ∉ (([] : List ℤ) ++ [] ++ []) := by
  constructor
  · norm_num [split_dataset_seeded, split_dataset, listCopy, pyShuffle,
      shuffleAux, pyInt, pySliceTo, pySliceFrom, pySlice, pyIdx]
  · decide

/-- C3.  Determinism of the Split Partitioner: two runs with the same seed,
the same image-id sequence in the same order, and the same ratios return
identical train/valid/test groupings (the embedded partitioner is a pure
function of exactly these inputs). -/
theorem split_dataset_deterministic (seed₁ seed₂ : ℤ) (ids₁ ids₂ : List ℤ)
    (t₁ t₂ v₁ v₂ te₁ te₂ : ℚ) (hs : seed₁ = seed₂) (hids : ids₁ = ids₂)
    (ht : t₁ = t₂) (hv : v₁ = v₂) (hte : te₁ = te₂) :
    split_dataset_seeded seed₁ ids₁ t₁ v₁ te₁ =
      split_dataset_seeded seed₂ ids₂ t₂ v₂ te₂ := by
  subst hs; subst hids; subst ht; subst hv; subst hte; rfl

/-- Witness for C3 at a concrete input. -/
theorem split_dataset_deterministic_witness :
    split_dataset_seeded 42 [1, 2, 3] (8/10) (2/10) 0 =
      split_dataset_seeded 42 [1, 2, 3] (8/10) (2/10) 0 :=
  split_dataset_deterministic 42 42 [1, 2, 3] [1, 2, 3] (8/10) (8/10)
    (2/10) (2/10) 0 0 rfl rfl rfl rfl rfl

/-- C10.  `split_dataset` does not mutate the caller's list: in the heap
model, where `random.shuffle` mutates its argument cell in place, the cell
the caller passed still holds its original elements in their original order
after the call, because the shuffle is applied to the fresh cell allocated
by `image_ids.copy()`. -/
theorem split_dataset_ref_frame (rand : ℕ → ℕ) (h : Heap) (r : ℕ)
    (t v te : ℚ) (hr : r < h.length) :
    heapGet (split_dataset_ref rand h r t v te).1 r = heapGet h r := by
  unfold split_dataset_ref
  split
  · rfl
  · simp only [heapCopy, heapShuffle, heapGet,
      List.getD_eq_getElem?_getD]
    rw [List.getElem?_set_ne (by omega : h.length ≠ r),
        List.getElem?_append_left hr]

/-- Witness for C10 at a concrete heap. -/
theorem split_dataset_ref_frame_witness :
    heapGet (split_dataset_ref (fun _ => 0) [[1, 2, 3]] 0 (1/2) (1/2) 0).1 0 =
      heapGet [[1, 2, 3]] 0 :=
  split_dataset_ref_frame (fun _ => 0) [[1, 2, 3]] 0 (1/2) (1/2) 0
    (by decide)

/-! ### Python dict lemmas -/

theorem dget?_dinsert (k k' : ℤ) (v : β) (d : List (ℤ × β)) :
    dget? k' (dinsert k v d) = if k' = k then some v else dget? k' d := by
  induction d with
  | nil => simp [dinsert, dget?]
  | cons p rest ih =>
    obtain ⟨k₀, v₀⟩ := p
    by_cases hk : k = k₀
    · subst hk
      by_cases hk' : k' = k <;> simp [dinsert, dget?, hk']
    · have hk₀ : ¬ k₀ = k := fun he => hk he.symm
      by_cases hk0 : k' = k₀
      · subst hk0
        simp [dinsert, dget?, hk, hk₀]
      · simp [dinsert, dget?, hk, hk0, ih]

theorem dget?_isSome_iff (k : ℤ) (d : List (ℤ × β)) :
    (dget? k d).isSome ↔ k ∈ dkeys d := by
  induction d with
  | nil => simp [dget?, dkeys]
  | cons p rest ih =>
    obtain ⟨k₀, v₀⟩ := p
    by_cases hk : k = k₀ <;> simp [dget?, dkeys, hk, ih]

theorem mem_dkeys_dinsert (k k' : ℤ) (v : β) (d : List (ℤ × β)) :
    k' ∈ dkeys (dinsert k v d) ↔ k' = k ∨ k' ∈ dkeys d := by
  rw [← dget?_isSome_iff, dget?_dinsert, ← dget?_isSome_iff]
  by_cases hk : k' = k <;> simp [hk]

theorem dget?_some_mem {k : ℤ} {d : List (ℤ × β)} {v : β}
    (h : dget? k d = some v) : k ∈ dkeys d :=
  (dget?_isSome_iff k d).mp (by simp [h])

theorem mem_dkeys_foldl {γ : Type _} (key : γ → ℤ) (val : List (ℤ × β) → γ → β) :
    ∀ (xs : List γ) (d : List (ℤ × β)) (k : ℤ),
      k ∈ dkeys (xs.foldl (fun d a => dinsert (key a) (val d a) d) d) ↔
        k ∈ dkeys d ∨ k ∈ xs.map key
  | [], d, k => by simp
  | a :: xs, d, k => by
    rw [List.foldl_cons, mem_dkeys_foldl key val xs]
    rw [mem_dkeys_dinsert]
    simp only [List.map_cons, List.mem_cons]
    tauto

theorem dinsert_of_not_mem {k : ℤ} {d : List (ℤ × β)} (h : k ∉ dkeys d) (v : β) :
    dinsert k v d = d ++ [(k, v)] := by
  induction d with
  | nil => rfl
  | cons p rest ih =>
    simp only [dkeys, List.map_cons, List.mem_cons] at h
    push_neg at h
    simp [dinsert, h.1, ih (by simpa [dkeys] using h.2)]

theorem foldl_dinsert_fresh :
    ∀ (ps : List (ℤ × β)) (d : List (ℤ × β)),
      (∀ p ∈ ps, p.1 ∉ dkeys d) → (ps.map Prod.fst).Nodup →
      ps.foldl (fun d p => dinsert p.1 p.2 d) d = d ++ ps
  | [], d, _, _ => by simp
  | p :: ps, d, hfresh, hnd => by
    rw [List.foldl_cons, dinsert_of_not_mem (hfresh p (by simp)) p.2]
    have hnd' := hnd
    simp only [List.map_cons, List.nodup_cons] at hnd'
    rw [foldl_dinsert_fresh ps (d ++ [(p.1, p.2)]) ?fresh hnd'.2]
    · simp
    case fresh =>
      intro q hq
      have hne : q.1 ≠ p.1 := by
        intro he
        exact hnd'.1 (he ▸ List.mem_map_of_mem Prod.fst hq)
      have h1 : q.1 ∉ dkeys d := hfresh q (List.mem_cons_of_mem p hq)
      simp only [dkeys, List.map_append, List.mem_append, List.map_cons,
        List.map_nil, List.mem_singleton, not_or]
      exact ⟨h1, hne⟩

theorem dget?_of_nodup :
    ∀ (d : List (ℤ × β)) (n : ℕ) (h : n < d.length), (dkeys d).Nodup →
      dget? (d.get ⟨n, h⟩).1 d = some (d.get ⟨n, h⟩).2
  | p :: rest, 0, _, _ => by simp [dget?]
  | p :: rest, n + 1, h, hnd => by
    have hn : n < rest.length := Nat.lt_of_succ_lt_succ (by simpa using h)
    simp only [dkeys, List.map_cons, List.nodup_cons] at hnd
    have hmem : rest[n] ∈ rest := List.getElem_mem hn
    have hkey : (rest[n]).1 ≠ p.1 := by
      intro he
      exact hnd.1 (he ▸ List.mem_map_of_mem Prod.fst hmem)
    have ih := dget?_of_nodup rest n hn hnd.2
    simp only [List.get_eq_getElem] at ih ⊢
    simp only [List.getElem_cons_succ]
    simp [dget?, hkey, ih]

/-! ### The Category Indexer -/

theorem dkeys_category_pairs (cats : List Category) :
    dkeys (cats.enum.map (fun p => (p.2.id, p.1))) = cats.map Category.id := by
  rw [dkeys, List.map_map,
    show (Prod.fst ∘ fun (p : ℕ × Category) => (p.2.id, p.1)) =
      (Category.id ∘ Prod.snd) from rfl,
    ← List.map_map, List.enum_map_snd]

theorem category_id_to_index_eq (cats : List Category)
    (hnd : (cats.map Category.id).Nodup) :
    category_id_to_index cats = cats.enum.map (fun p => (p.2.id, p.1)) := by
  rw [category_id_to_index]
  rw [show (fun (d : List (ℤ × ℕ)) (p : ℕ × Category) => dinsert p.2.id p.1 d) =
      (fun d p => (fun d q => dinsert q.1 q.2 d) d
        ((fun (p : ℕ × Category) => (p.2.id, p.1)) p)) from rfl]
  rw [← List.foldl_map (fun (p : ℕ × Category) => (p.2.id, p.1))
    (fun d q => dinsert q.1 q.2 d) cats.enum []]
  rw [foldl_dinsert_fresh _ [] (by simp [dkeys]) ?nodup]
  · simp
  case nodup =>
    have : (cats.enum.map (fun p => (p.2.id, p.1))).map Prod.fst =
        cats.map Category.id := dkeys_category_pairs cats
    rw [this]; exact hnd

/-- C4 (amended).  Building the category index never fails; when all
category ids are distinct, the id→class_index mapping sends the n-th
category's id to class index n (its zero-based position).  With duplicate
ids the builder silently keeps the **later** index (see the
counterexample), and an empty list yields an empty mapping, with no
`SchemaError` in either case. -/
theorem category_index_of_nodup (cats : List Category) (n : ℕ)
    (hnd : (cats.map Category.id).Nodup) (hn : n < cats.length) :
    dget? ((cats.get ⟨n, hn⟩).id) (category_id_to_index cats) = some n := by
  rw [category_id_to_index_eq cats hnd]
  have hlen : n < (cats.enum.map (fun p => (p.2.id, p.1))).length := by
    simpa using hn
  have hget : (cats.enum.map (fun p => (p.2.id, p.1))).get ⟨n, hlen⟩ =
      ((cats.get ⟨n, hn⟩).id, n) := by
    simp [List.get_eq_getElem, List.getElem_map, List.getElem_enum]
  have hkeys : (dkeys (cats.enum.map (fun p => (p.2.id, p.1)))).Nodup := by
    rw [dkeys_category_pairs]; exact hnd
  have := dget?_of_nodup (cats.enum.map (fun p => (p.2.id, p.1))) n hlen hkeys
  rw [hget] at this
  exact this

/-- Witness for the amended C4: two distinct category ids 3 and 7; id 7
maps to class index 1. -/
theorem category_index_of_nodup_witness :
    dget? 7 (category_id_to_index
      [{ id := 3, name := "a" }, { id := 7, name := "b" }]) = some 1 := by
  simpa using category_index_of_nodup
    [{ id := 3, name := "a" }, { id := 7, name := "b" }] 1 (by decide) (by decide)

/-- Counterexample to C4 as stated: an empty category list builds the empty
mapping and a duplicated id (two categories with id 1) builds a mapping
without any error — the later category's class index 1 silently overwrites
the earlier 0. -/
theorem category_index_counterexample :
    category_id_to_index [] = [] ∧
    category_id_to_index [{ id := 1, name := "a" }, { id := 1, name := "b" }] =
      [(1, 1)] ∧
    dget? 1 (category_id_to_index
      [{ id := 1, name := "a" }, { id := 1, name := "b" }]) = some 1 := by
  refine ⟨rfl, by decide, by decide⟩

/-! ### The Geometry Normalizer -/

theorem normalizePoly_even_ok (W H : ℚ) :
    ∀ (p : List ℚ), Even p.length →
      normalizePoly W H p = .ok (normPolyPure W H p)
  | [], _ => rfl
  | [_], h => by simp at h
  | x :: y :: rest, h => by
    have he : Even rest.length := by
      simpa [Nat.even_add_one, Nat.even_add] using h
    simp [normalizePoly, normPolyPure, normalizePoly_even_ok W H rest he,
      Except.map]

theorem segLinesSplit_even (ci : ℕ) (W H : ℚ) :
    ∀ (polys : List (List ℚ)), (∀ p ∈ polys, Even p.length) →
      segLinesSplit ci W H polys =
        (polys.map (fun p => LabelLine.seg ci (normPolyPure W H p)), none)
  | [], _ => rfl
  | p :: ps, h => by
    have h1 := normalizePoly_even_ok W H p (h p (by simp))
    have h2 := segLinesSplit_even ci W H ps (fun q hq => h q (by simp [hq]))
    simp [segLinesSplit, h1, h2]

theorem segCoordsAll_even (W H : ℚ) :
    ∀ (polys : List (List ℚ)), (∀ p ∈ polys, Even p.length) →
      segCoordsAll W H polys = .ok ((polys.map (normPolyPure W H)).flatten)
  | [], _ => rfl
  | p :: ps, h => by
    have h1 := normalizePoly_even_ok W H p (h p (by simp))
    have h2 := segCoordsAll_even W H ps (fun q hq => h q (by simp [hq]))
    simp [segCoordsAll, h1, h2, Except.map]

/-- C1 (amended).  For a non-crowd annotation with a present, non-empty
segmentation (all polygons even-length) and a resolvable category id, the
**splitter** notebook emits one segmentation line **per polygon** — the
class index followed by that polygon's normalized (x/width, y/height)
pairs — while the **simpler** notebook emits exactly one line carrying the
flattened concatenation of all the annotation's normalized polygons.  The
two coincide only when the annotation has a single polygon. -/
theorem annotationLines_seg (catIdx : List (ℤ × ℕ)) (W H : ℚ)
    (ann : Annotation) (ci : ℕ)
    (hseg : ann.segmentation ≠ []) (hcrowd : ann.iscrowd = 0)
    (hci : dget? ann.category_id catIdx = some ci)
    (heven : ∀ p ∈ ann.segmentation, Even p.length) :
    annotationLines catIdx W H ann =
      (ann.segmentation.map (fun p => LabelLine.seg ci (normPolyPure W H p)),
        none) ∧
    annotationLinesSimple catIdx W H ann =
      ([LabelLine.seg ci ((ann.segmentation.map (normPolyPure W H)).flatten)],
        none) := by
  constructor
  · simp [annotationLines, hci, hseg, hcrowd,
      segLinesSplit_even ci W H ann.segmentation heven]
  · simp [annotationLinesSimple, hci, hseg, hcrowd,
      segCoordsAll_even W H ann.segmentation heven]

/-- Witness for the amended C1: the two-polygon annotation on a 2×2 image. -/
theorem annotationLines_seg_witness :
    annotationLines oneCatIdx 2 2 twoPolyAnn =
      ([LabelLine.seg 0 [0, 0, 1, 0], LabelLine.seg 0 [0, 0, 1/2, 1/2]],
        none) ∧
    annotationLinesSimple oneCatIdx 2 2 twoPolyAnn =
      ([LabelLine.seg 0 [0, 0, 1, 0, 0, 0, 1/2, 1/2]], none) := by
  have h := annotationLines_seg oneCatIdx 2 2 twoPolyAnn 0
    (by decide) rfl (by decide) (by decide)
  norm_num [twoPolyAnn, normPolyPure] at h
  exact h

/-- Counterexample to C1 as stated: the splitter notebook's normalizer
emits **two** label lines for the two-polygon annotation, not the single
concatenated line the claim requires. -/
theorem annotationLines_seg_counterexample :
    annotationLines oneCatIdx 2 2 twoPolyAnn =
      ([LabelLine.seg 0 [0, 0, 1, 0], LabelLine.seg 0 [0, 0, 1/2, 1/2]],
        none) ∧
    (annotationLines oneCatIdx 2 2 twoPolyAnn).1.length = 2 := by
  constructor <;>
    norm_num [annotationLines, twoPolyAnn, oneCatIdx, dget?, segLinesSplit,
      normalizePoly, Except.map, List.cons_ne_nil]

/-- C6.  For an annotation with no usable segmentation but a present bbox
`[x_min, y_min, w, h]`, on an image of positive width and height, the
emitted line is the class index followed by
`(x_min + w/2)/W, (y_min + h/2)/H, w/W, h/H`. -/
theorem annotationLines_bbox (catIdx : List (ℤ × ℕ)) (W H : ℚ)
    (ann : Annotation) (x y w h : ℚ) (ci : ℕ)
    (hseg : ¬ (ann.segmentation ≠ [] ∧ ann.iscrowd = 0))
    (hbox : ann.bbox = some (x, y, w, h))
    (hci : dget? ann.category_id catIdx = some ci)
    (hW : 0 < W) (hH : 0 < H) :
    annotationLines catIdx W H ann =
      ([LabelLine.box ci ((x + w / 2) / W) ((y + h / 2) / H) (w / W) (h / H)],
        none) := by
  simp [annotationLines, hci, if_neg hseg, hbox]

/-- Witness for C6, instantiating the box `[0, 0, W, H]` on an image of
exactly that width and height (W = 4, H = 3): the emitted line is
`class_index 0.5 0.5 1.0 1.0`. -/
theorem annotationLines_bbox_witness :
    annotationLines oneCatIdx 4 3
      { id := 9, image_id := 5, category_id := 1, segmentation := [],
        bbox := some (0, 0, 4, 3), iscrowd := 0 } =
      ([LabelLine.box 0 (1/2) (1/2) 1 1], none) := by
  have h := annotationLines_bbox oneCatIdx 4 3
    { id := 9, image_id := 5, category_id := 1, segmentation := [],
      bbox := some (0, 0, 4, 3), iscrowd := 0 }
    0 0 4 3 0 (by simp) rfl (by decide) (by norm_num) (by norm_num)
  norm_num at h
  exact h

/-- C7.  A crowd annotation (`iscrowd = 1`) with non-empty segmentation
never yields a segmentation-format line; when it also carries a bbox, the
bbox-format line is emitted instead. -/
theorem annotationLines_crowd (catIdx : List (ℤ × ℕ)) (W H : ℚ)
    (ann : Annotation) (ci : ℕ)
    (hcrowd : ann.iscrowd = 1) (hseg : ann.segmentation ≠ [])
    (hci : dget? ann.category_id catIdx = some ci)
    (hW : 0 < W) (hH : 0 < H) :
    (∀ ci' cs, LabelLine.seg ci' cs ∉ (annotationLines catIdx W H ann).1) ∧
    (∀ x y w h, ann.bbox = some (x, y, w, h) →
      annotationLines catIdx W H ann =
        ([LabelLine.box ci ((x + w / 2) / W) ((y + h / 2) / H) (w / W)
            (h / H)], none)) := by
  have hcond : ¬ (ann.segmentation ≠ [] ∧ ann.iscrowd = 0) := by
    simp [hcrowd]
  constructor
  · intro ci' cs
    cases hbox : ann.bbox with
    | none => simp [annotationLines, hci, if_neg hcond, hbox]
    | some q =>
      obtain ⟨x, y, w, h⟩ := q
      simp [annotationLines, hci, if_neg hcond, hbox]
  · intro x y w h hbox
    simp [annotationLines, hci, if_neg hcond, hbox]

/-- Witness for C7: a crowd annotation with one polygon and the bbox
`[0, 0, 4, 3]` on a 4×3 image emits exactly the bbox-format line and no
segmentation-format line. -/
theorem annotationLines_crowd_witness :
    LabelLine.seg 0 [0, 0, 1, 1] ∉
      (annotationLines oneCatIdx 4 3
        { id := 9, image_id := 5, category_id := 1,
          segmentation := [[0, 0, 1, 1]], bbox := some (0, 0, 4, 3),
          iscrowd := 1 }).1 ∧
    annotationLines oneCatIdx 4 3
      { id := 9, image_id := 5, category_id := 1,
        segmentation := [[0, 0, 1, 1]], bbox := some (0, 0, 4, 3),
        iscrowd := 1 } =
      ([LabelLine.box 0 (1/2) (1/2) 1 1], none) := by
  have h := annotationLines_crowd oneCatIdx 4 3
    { id := 9, image_id := 5, category_id := 1,
      segmentation := [[0, 0, 1, 1]], bbox := some (0, 0, 4, 3),
      iscrowd := 1 }
    0 rfl (by decide) (by decide) (by norm_num) (by norm_num)
  refine ⟨h.1 0 [0, 0, 1, 1], ?_⟩
  have h2 := h.2 0 0 4 3 rfl
  norm_num at h2
  exact h2

/-! ### Supporting facts for the Dataset Materializer -/

theorem pySliceTo_subset (b : ℤ) (l : List α) : pySliceTo b l ⊆ l :=
  List.take_subset _ _

theorem pySliceFrom_subset (a : ℤ) (l : List α) : pySliceFrom a l ⊆ l :=
  List.drop_subset _ _

theorem pySlice_subset (a b : ℤ) (l : List α) : pySlice a b l ⊆ l :=
  (List.drop_subset _ _).trans (List.take_subset _ _)

theorem split_dataset_ok_sub {rand : ℕ → ℕ} {ids tr va ts : List ℤ}
    {t v te : ℚ} (h : split_dataset rand ids t v te = .ok (tr, va, ts)) :
    tr ⊆ ids ∧ va ⊆ ids ∧ ts ⊆ ids := by
  unfold split_dataset at h
  split at h
  · exact absurd h (by simp)
  · simp only [listCopy, Except.ok.injEq, Prod.mk.injEq] at h
    obtain ⟨h1, h2, h3⟩ := h
    have hsub : pyShuffle rand ids ⊆ ids := (pyShuffle_perm rand ids).subset
    refine ⟨h1 ▸ (pySliceTo_subset _ _).trans hsub,
      h2 ▸ (pySlice_subset _ _ _).trans hsub, ?_⟩
    by_cases hte : (0:ℚ) < te
    · rw [if_pos hte] at h3
      exact h3 ▸ (pySliceFrom_subset _ _).trans hsub
    · rw [if_neg hte] at h3
      rw [← h3]
      intro x hx
      cases hx

theorem split_dataset_test_nil {rand : ℕ → ℕ} {ids tr va ts : List ℤ}
    {t v te : ℚ} (hte : te = 0)
    (h : split_dataset rand ids t v te = .ok (tr, va, ts)) : ts = [] := by
  subst hte
  unfold split_dataset at h
  split at h
  · exact absurd h (by simp)
  · simp only [listCopy, Except.ok.injEq, Prod.mk.injEq, gt_iff_lt,
      lt_self_iff_false, if_false] at h
    exact h.2.2.symm

theorem mem_dkeys_image_info (imgs : List Image) (k : ℤ) :
    k ∈ dkeys (image_id_to_info imgs) ↔ k ∈ imgs.map Image.id := by
  have := mem_dkeys_foldl Image.id (fun _ img => img) imgs [] k
  simpa [image_id_to_info, dkeys] using this

theorem mem_dkeys_groups (anns : List Annotation) (k : ℤ) :
    k ∈ dkeys (image_to_annotations anns) ↔
      k ∈ anns.map Annotation.image_id := by
  have := mem_dkeys_foldl Annotation.image_id
    (fun d a => (dget? a.image_id d).getD [] ++ [a]) anns [] k
  simpa [image_to_annotations, dkeys] using this

theorem enum_id_map (cats : List Category) :
    cats.enum.map (fun p => p.2.id) = cats.map Category.id := by
  rw [show (fun (p : ℕ × Category) => p.2.id) = (Category.id ∘ Prod.snd) from
    rfl, ← List.map_map, List.enum_map_snd]

theorem mem_dkeys_catIdx (cats : List Category) (k : ℤ) :
    k ∈ dkeys (category_id_to_index cats) ↔ k ∈ cats.map Category.id := by
  have := mem_dkeys_foldl (fun (p : ℕ × Category) => p.2.id)
    (fun _ p => p.1) cats.enum [] k
  rw [enum_id_map] at this
  simpa [category_id_to_index, dkeys] using this

theorem foldl_group_values (P : Annotation → Prop) :
    ∀ (xs : List Annotation) (d : List (ℤ × List Annotation)),
      (∀ k as, dget? k d = some as → ∀ a ∈ as, P a) →
      (∀ a ∈ xs, P a) →
      ∀ k as, dget? k (xs.foldl (fun d ann =>
          dinsert ann.image_id ((dget? ann.image_id d).getD [] ++ [ann]) d)
        d) = some as → ∀ a ∈ as, P a
  | [], _, hd, _ => hd
  | x :: xs, d, hd, hx => by
    rw [List.foldl_cons]
    apply foldl_group_values P xs _ ?step (fun a ha => hx a (by simp [ha]))
    case step =>
      intro k' as' hk'
      rw [dget?_dinsert] at hk'
      by_cases he : k' = x.image_id
      · rw [if_pos he] at hk'
        injection hk' with hval
        intro a ha
        rw [← hval] at ha
        rcases List.mem_append.mp ha with h1 | h1
        · cases hgd : dget? x.image_id d with
          | none => rw [hgd] at h1; simp at h1
          | some old =>
            rw [hgd] at h1
            exact hd _ old hgd a (by simpa using h1)
        · rw [List.mem_singleton] at h1
          rw [h1]
          exact hx x (by simp)
      · rw [if_neg he] at hk'
        exact hd _ _ hk'

theorem image_to_annotations_values {anns : List Annotation} {k : ℤ}
    {as : List Annotation}
    (h : dget? k (image_to_annotations anns) = some as) :
    ∀ a ∈ as, a ∈ anns :=
  foldl_group_values (· ∈ anns) anns []
    (by intro k' as' h'; simp [dget?] at h') (fun a ha => ha) k as
    (by simpa [image_to_annotations] using h)

theorem image_id_to_info_eq (imgs : List Image)
    (hnd : (imgs.map Image.id).Nodup) :
    image_id_to_info imgs = imgs.map (fun im => (im.id, im)) := by
  rw [image_id_to_info]
  rw [show (fun (d : List (ℤ × Image)) (img : Image) => dinsert img.id img d) =
    (fun d p => (fun d (q : ℤ × Image) => dinsert q.1 q.2 d) d
      ((fun (im : Image) => (im.id, im)) p)) from rfl]
  rw [← List.foldl_map (fun (im : Image) => (im.id, im))
    (fun d (q : ℤ × Image) => dinsert q.1 q.2 d) imgs []]
  rw [foldl_dinsert_fresh _ [] (by simp [dkeys]) ?nd]
  · simp
  case nd =>
    have hmm : (imgs.map (fun im => (im.id, im))).map Prod.fst =
        imgs.map Image.id := by
      rw [List.map_map]; rfl
    rw [hmm]; exact hnd

theorem image_id_to_info_lookup {imgs : List Image} {img : Image}
    (hnd : (imgs.map Image.id).Nodup) (h : img ∈ imgs) :
    dget? img.id (image_id_to_info imgs) = some img := by
  rw [image_id_to_info_eq imgs hnd]
  obtain ⟨⟨n, hn⟩, rfl⟩ := List.mem_iff_get.mp h
  have hlen : n < (imgs.map (fun im => (im.id, im))).length := by simpa using hn
  have hkeys : (dkeys (imgs.map (fun im => (im.id, im)))).Nodup := by
    have hmm : (imgs.map (fun im => (im.id, im))).map Prod.fst =
        imgs.map Image.id := by
      rw [List.map_map]; rfl
    rw [dkeys, hmm]; exact hnd
  have hthis := dget?_of_nodup (imgs.map (fun im => (im.id, im))) n hlen hkeys
  have hget : (imgs.map (fun im => (im.id, im))).get ⟨n, hlen⟩ =
      ((imgs.get ⟨n, hn⟩).id, imgs.get ⟨n, hn⟩) := by
    simp [List.get_eq_getElem, List.getElem_map]
  rw [hget] at hthis
  exact hthis

theorem goodId_of_wf (coco : CocoData) (fs : List String) (id : ℤ)
    (hwf : WellFormed coco)
    (hid : id ∈ dkeys (image_to_annotations coco.annotations)) :
    goodId (category_id_to_index coco.categories)
      (image_id_to_info coco.images)
      (image_to_annotations coco.annotations) fs id := by
  have h1 : id ∈ coco.annotations.map Annotation.image_id :=
    (mem_dkeys_groups coco.annotations id).mp hid
  obtain ⟨ann, hann, hanid⟩ := List.mem_map.mp h1
  obtain ⟨⟨img, himg, himgid⟩, -, -⟩ := hwf ann hann
  have h2 : id ∈ dkeys (image_id_to_info coco.images) := by
    rw [mem_dkeys_image_info]
    exact List.mem_map.mpr ⟨img, himg, by rw [himgid, hanid]⟩
  obtain ⟨info, hinfo⟩ :=
    Option.isSome_iff_exists.mp ((dget?_isSome_iff _ _).mpr h2)
  refine ⟨info, hinfo, fun _ => ?_⟩
  obtain ⟨anns, hanns⟩ :=
    Option.isSome_iff_exists.mp ((dget?_isSome_iff _ _).mpr hid)
  refine ⟨anns, hanns, fun a ha => ?_⟩
  have haa : a ∈ coco.annotations := image_to_annotations_values hanns a ha
  obtain ⟨-, ⟨c, hc, hcid⟩, heven⟩ := hwf a haa
  refine ⟨?_, heven⟩
  have h3 : a.category_id ∈ dkeys (category_id_to_index coco.categories) := by
    rw [mem_dkeys_catIdx]
    exact List.mem_map.mpr ⟨c, hc, hcid⟩
  exact Option.isSome_iff_exists.mp ((dget?_isSome_iff _ _).mpr h3)

theorem annotationLines_err_none {catIdx : List (ℤ × ℕ)} {W H : ℚ}
    (a : Annotation) (hci : ∃ ci, dget? a.category_id catIdx = some ci)
    (heven : ∀ p ∈ a.segmentation, Even p.length) :
    (annotationLines catIdx W H a).2 = none := by
  obtain ⟨ci, hci⟩ := hci
  simp only [annotationLines, hci]
  by_cases hseg : a.segmentation ≠ [] ∧ a.iscrowd = 0
  · rw [if_pos hseg, segLinesSplit_even ci W H _ heven]
  · rw [if_neg hseg]
    cases hbox : a.bbox with
    | none => rfl
    | some q => obtain ⟨x, y, w, h⟩ := q; rfl

theorem imageLabelLines_err_none {catIdx : List (ℤ × ℕ)} {W H : ℚ} :
    ∀ (anns : List Annotation),
      (∀ a ∈ anns, (∃ ci, dget? a.category_id catIdx = some ci) ∧
        ∀ p ∈ a.segmentation, Even p.length) →
      (imageLabelLines catIdx W H anns).2 = none
  | [], _ => rfl
  | a :: anns, h => by
    have h1 : (annotationLines catIdx W H a).2 = none :=
      annotationLines_err_none a (h a (by simp)).1 (h a (by simp)).2
    have h2 : (imageLabelLines catIdx W H anns).2 = none :=
      imageLabelLines_err_none anns (fun b hb => h b (by simp [hb]))
    simp [imageLabelLines, h1, h2]

theorem processImage_ok_of_good (catIdx : List (ℤ × ℕ))
    (imgInfo : List (ℤ × Image)) (groups : List (ℤ × List Annotation))
    (fs : List String) (split : String) (st : RunState) (image_id : ℤ)
    (hgood : goodId catIdx imgInfo groups fs image_id) :
    (processImage catIdx imgInfo groups fs split st image_id).2 = none := by
  obtain ⟨info, hinfo, hrest⟩ := hgood
  simp only [processImage, hinfo]
  by_cases hfs : info.file_name ∈ fs
  · obtain ⟨anns, hanns, hgoodanns⟩ := hrest hfs
    simp only [if_pos hfs, hanns]
    exact imageLabelLines_err_none anns hgoodanns
  · simp [if_neg hfs]

theorem processImage_of_missing {imgInfo : List (ℤ × Image)} {image_id : ℤ}
    {info : Image} {fs : List String}
    (hinfo : dget? image_id imgInfo = some info) (hfs : info.file_name ∉ fs)
    (catIdx : List (ℤ × ℕ)) (groups : List (ℤ × List Annotation))
    (split : String) (st : RunState) :
    processImage catIdx imgInfo groups fs split st image_id =
      ({ st with missing_images := st.missing_images ++ [info.file_name] },
        none) := by
  simp [processImage, hinfo, hfs]

theorem processImage_effects (catIdx : List (ℤ × ℕ))
    (imgInfo : List (ℤ × Image)) (groups : List (ℤ × List Annotation))
    (fs : List String) (split : String) (st : RunState) (image_id : ℤ) :
    ∃ tail,
      (processImage catIdx imgInfo groups fs split st image_id).1.effects =
        st.effects ++ tail ∧
      ∀ e ∈ tail, (∃ f, e = Effect.copyImage split f) ∨
        ∃ f L, e = Effect.writeLabel split image_id f L := by
  cases hinfo : dget? image_id imgInfo with
  | none => exact ⟨[], by simp [processImage, hinfo], by simp⟩
  | some info =>
    by_cases hfs : info.file_name ∈ fs
    · by_cases hcopy : Effect.copyImage split info.file_name ∈ st.effects
      · cases hanns : dget? image_id groups with
        | none => exact ⟨[], by simp [processImage, hinfo, hfs, hcopy, hanns],
            by simp⟩
        | some anns =>
          refine ⟨[Effect.writeLabel split image_id
            (labelFileName info.file_name)
            (imageLabelLines catIdx info.width info.height anns).1], ?_, ?_⟩
          · simp [processImage, hinfo, hfs, hcopy, hanns]
          · intro e he
            rw [List.mem_singleton] at he
            exact Or.inr ⟨_, _, he⟩
      · cases hanns : dget? image_id groups with
        | none =>
          refine ⟨[Effect.copyImage split info.file_name], ?_, ?_⟩
          · simp [processImage, hinfo, hfs, hcopy, hanns]
          · intro e he
            rw [List.mem_singleton] at he
            exact Or.inl ⟨_, he⟩
        | some anns =>
          refine ⟨[Effect.copyImage split info.file_name,
            Effect.writeLabel split image_id (labelFileName info.file_name)
              (imageLabelLines catIdx info.width info.height anns).1], ?_, ?_⟩
          · simp [processImage, hinfo, hfs, hcopy, hanns]
          · intro e he
            rcases List.mem_cons.mp he with h | h
            · exact Or.inl ⟨_, h⟩
            · rw [List.mem_singleton] at h
              exact Or.inr ⟨_, _, h⟩
    · exact ⟨[], by simp [processImage, hinfo, hfs], by simp⟩

theorem processImage_missing_append (catIdx : List (ℤ × ℕ))
    (imgInfo : List (ℤ × Image)) (groups : List (ℤ × List Annotation))
    (fs : List String) (split : String) (st : RunState) (image_id : ℤ) :
    ∃ tail,
      (processImage catIdx imgInfo groups fs split st image_id).1.missing_images
        = st.missing_images ++ tail := by
  cases hinfo : dget? image_id imgInfo with
  | none => exact ⟨[], by simp [processImage, hinfo]⟩
  | some info =>
    by_cases hfs : info.file_name ∈ fs
    · by_cases hcopy : Effect.copyImage split info.file_name ∈ st.effects <;>
        cases hanns : dget? image_id groups <;>
        exact ⟨[], by simp [processImage, hinfo, hfs, hcopy, hanns]⟩
    · exact ⟨[info.file_name], by simp [processImage, hinfo, hfs]⟩

theorem processImages_effects (catIdx : List (ℤ × ℕ))
    (imgInfo : List (ℤ × Image)) (groups : List (ℤ × List Annotation))
    (fs : List String) (split : String) :
    ∀ (ids : List ℤ) (st : RunState),
      ∃ tail,
        (processImages catIdx imgInfo groups fs split ids st).1.effects =
          st.effects ++ tail ∧
        ∀ e ∈ tail, (∃ f, e = Effect.copyImage split f) ∨
          ∃ i f L, i ∈ ids ∧ e = Effect.writeLabel split i f L
  | [], st => ⟨[], by simp [processImages], by simp⟩
  | id :: ids, st => by
    obtain ⟨t1, ht1, htag1⟩ :=
      processImage_effects catIdx imgInfo groups fs split st id
    simp only [processImages]
    cases herr : (processImage catIdx imgInfo groups fs split st id).2 with
    | some e =>
      refine ⟨t1, ht1, fun e' he' => ?_⟩
      rcases htag1 e' he' with h | ⟨f, L, h⟩
      · exact Or.inl h
      · exact Or.inr ⟨id, f, L, by simp, h⟩
    | none =>
      obtain ⟨t2, ht2, htag2⟩ := processImages_effects catIdx imgInfo groups
        fs split ids (processImage catIdx imgInfo groups fs split st id).1
      refine ⟨t1 ++ t2, by rw [ht2, ht1, List.append_assoc], fun e' he' => ?_⟩
      rcases List.mem_append.mp he' with h | h
      · rcases htag1 e' h with h' | ⟨f, L, h'⟩
        · exact Or.inl h'
        · exact Or.inr ⟨id, f, L, by simp, h'⟩
      · rcases htag2 e' h with h' | ⟨i, f, L, hi, h'⟩
        · exact Or.inl h'
        · exact Or.inr ⟨i, f, L, by simp [hi], h'⟩

theorem processImages_ok (catIdx : List (ℤ × ℕ)) (imgInfo : List (ℤ × Image))
    (groups : List (ℤ × List Annotation)) (fs : List String) (split : String) :
    ∀ (ids : List ℤ) (st : RunState),
      (∀ i ∈ ids, goodId catIdx imgInfo groups fs i) →
      (processImages catIdx imgInfo groups fs split ids st).2 = none
  | [], _, _ => rfl
  | id :: ids, st, h => by
    have h1 := processImage_ok_of_good catIdx imgInfo groups fs split st id
      (h id (by simp))
    simp only [processImages, h1]
    exact processImages_ok catIdx imgInfo groups fs split ids _
      (fun i hi => h i (by simp [hi]))

theorem processImages_missing_append (catIdx : List (ℤ × ℕ))
    (imgInfo : List (ℤ × Image)) (groups : List (ℤ × List Annotation))
    (fs : List String) (split : String) :
    ∀ (ids : List ℤ) (st : RunState),
      ∃ tail,
        (processImages catIdx imgInfo groups fs split ids st).1.missing_images
          = st.missing_images ++ tail
  | [], st => ⟨[], by simp [processImages]⟩
  | id :: ids, st => by
    obtain ⟨t1, ht1⟩ :=
      processImage_missing_append catIdx imgInfo groups fs split st id
    simp only [processImages]
    cases herr : (processImage catIdx imgInfo groups fs split st id).2 with
    | some e => exact ⟨t1, ht1⟩
    | none =>
      obtain ⟨t2, ht2⟩ := processImages_missing_append catIdx imgInfo groups
        fs split ids (processImage catIdx imgInfo groups fs split st id).1
      exact ⟨t1 ++ t2, by rw [ht2, ht1, List.append_assoc]⟩

theorem processImages_missing_mem (catIdx : List (ℤ × ℕ))
    (imgInfo : List (ℤ × Image)) (groups : List (ℤ × List Annotation))
    (fs : List String) (split : String) {target : ℤ} {info : Image}
    (hinfo : dget? target imgInfo = some info)
    (hfs : info.file_name ∉ fs) :
    ∀ (ids : List ℤ) (st : RunState),
      (∀ i ∈ ids, goodId catIdx imgInfo groups fs i) → target ∈ ids →
      info.file_name ∈
        (processImages catIdx imgInfo groups fs split ids st).1.missing_images
  | [], _, _, hmem => absurd hmem (by simp)
  | id :: ids, st, hgood, hmem => by
    simp only [processImages]
    by_cases heq : id = target
    · subst heq
      rw [processImage_of_missing hinfo hfs catIdx groups split st]
      obtain ⟨t, ht⟩ := processImages_missing_append catIdx imgInfo groups
        fs split ids
        { st with missing_images := st.missing_images ++ [info.file_name] }
      rw [ht]
      simp
    · have hmem' : target ∈ ids := by
        rcases List.mem_cons.mp hmem with h | h
        · exact absurd h.symm heq
        · exact h
      have h1 := processImage_ok_of_good catIdx imgInfo groups fs split st id
        (hgood id (by simp))
      simp only [h1]
      exact processImages_missing_mem catIdx imgInfo groups fs split hinfo hfs
        ids _ (fun i hi => hgood i (by simp [hi])) hmem'

theorem processImages_no_label (catIdx : List (ℤ × ℕ))
    (imgInfo : List (ℤ × Image)) (groups : List (ℤ × List Annotation))
    (fs : List String) (split : String) {target : ℤ} {info : Image}
    (hinfo : dget? target imgInfo = some info)
    (hfs : info.file_name ∉ fs) :
    ∀ (ids : List ℤ) (st : RunState),
      (∀ s f L, Effect.writeLabel s target f L ∉ st.effects) →
      ∀ s f L, Effect.writeLabel s target f L ∉
        (processImages catIdx imgInfo groups fs split ids st).1.effects
  | [], st, hnot => by simpa [processImages] using hnot
  | id :: ids, st, hnot => by
    simp only [processImages]
    by_cases heq : id = target
    · subst heq
      rw [processImage_of_missing hinfo hfs catIdx groups split st]
      exact processImages_no_label catIdx imgInfo groups fs split hinfo hfs
        ids _ (by simpa using hnot)
    · obtain ⟨t1, ht1, htag1⟩ :=
        processImage_effects catIdx imgInfo groups fs split st id
      have hnot' : ∀ s f L, Effect.writeLabel s target f L ∉
          (processImage catIdx imgInfo groups fs split st id).1.effects := by
        intro s f L hmem
        rw [ht1] at hmem
        rcases List.mem_append.mp hmem with h | h
        · exact hnot s f L h
        · rcases htag1 _ h with ⟨f', he⟩ | ⟨f', L', he⟩
          · exact Effect.noConfusion he
          · injection he with _ h2 _ _
            exact heq h2.symm
      cases herr : (processImage catIdx imgInfo groups fs split st id).2 with
      | some e => exact hnot'
      | none =>
        exact processImages_no_label catIdx imgInfo groups fs split hinfo hfs
          ids _ hnot'

theorem processSplits_effects (catIdx : List (ℤ × ℕ))
    (imgInfo : List (ℤ × Image)) (groups : List (ℤ × List Annotation))
    (fs : List String) :
    ∀ (splits : List (String × List ℤ)) (st : RunState),
      ∃ tail,
        (processSplits catIdx imgInfo groups fs splits st).1.effects =
          st.effects ++ tail ∧
        ∀ e ∈ tail, effectFromSplit splits e
  | [], st => ⟨[], by simp [processSplits], by simp⟩
  | (nm, ids) :: rest, st => by
    simp only [processSplits]
    by_cases hids : ids = []
    · rw [if_pos hids]
      obtain ⟨t, ht, htag⟩ := processSplits_effects catIdx imgInfo groups fs
        rest st
      refine ⟨t, ht, fun e he => ?_⟩
      obtain ⟨p, hp, h⟩ := htag e he
      exact ⟨p, by simp [hp], h⟩
    · rw [if_neg hids]
      obtain ⟨t1, ht1, htag1⟩ :=
        processImages_effects catIdx imgInfo groups fs nm ids st
      cases herr : (processImages catIdx imgInfo groups fs nm ids st).2 with
      | some e =>
        refine ⟨t1, ht1, fun e' he' => ⟨(nm, ids), by simp, hids, ?_⟩⟩
        rcases htag1 e' he' with h | ⟨i, f, L, hi, h⟩
        · exact Or.inl h
        · exact Or.inr ⟨i, f, L, hi, h⟩
      | none =>
        obtain ⟨t2, ht2, htag2⟩ := processSplits_effects catIdx imgInfo groups
          fs rest (processImages catIdx imgInfo groups fs nm ids st).1
        refine ⟨t1 ++ t2, by rw [ht2, ht1, List.append_assoc],
          fun e' he' => ?_⟩
        rcases List.mem_append.mp he' with h | h
        · refine ⟨(nm, ids), by simp, hids, ?_⟩
          rcases htag1 e' h with h' | ⟨i, f, L, hi, h'⟩
          · exact Or.inl h'
          · exact Or.inr ⟨i, f, L, hi, h'⟩
        · obtain ⟨p, hp, hh⟩ := htag2 e' h
          exact ⟨p, by simp [hp], hh⟩

theorem processSplits_ok (catIdx : List (ℤ × ℕ)) (imgInfo : List (ℤ × Image))
    (groups : List (ℤ × List Annotation)) (fs : List String) :
    ∀ (splits : List (String × List ℤ)) (st : RunState),
      (∀ p ∈ splits, ∀ i ∈ p.2, goodId catIdx imgInfo groups fs i) →
      (processSplits catIdx imgInfo groups fs splits st).2 = none
  | [], _, _ => rfl
  | (nm, ids) :: rest, st, h => by
    simp only [processSplits]
    by_cases hids : ids = []
    · rw [if_pos hids]
      exact processSplits_ok catIdx imgInfo groups fs rest st
        (fun p hp => h p (by simp [hp]))
    · rw [if_neg hids]
      have h1 := processImages_ok catIdx imgInfo groups fs nm ids st
        (fun i hi => h (nm, ids) (by simp) i hi)
      simp only [h1]
      exact processSplits_ok catIdx imgInfo groups fs rest _
        (fun p hp => h p (by simp [hp]))

theorem processSplits_missing_append (catIdx : List (ℤ × ℕ))
    (imgInfo : List (ℤ × Image)) (groups : List (ℤ × List Annotation))
    (fs : List String) :
    ∀ (splits : List (String × List ℤ)) (st : RunState),
      ∃ tail,
        (processSplits catIdx imgInfo groups fs splits st).1.missing_images =
          st.missing_images ++ tail
  | [], st => ⟨[], by simp [processSplits]⟩
  | (nm, ids) :: rest, st => by
    simp only [processSplits]
    by_cases hids : ids = []
    · rw [if_pos hids]
      exact processSplits_missing_append catIdx imgInfo groups fs rest st
    · rw [if_neg hids]
      obtain ⟨t1, ht1⟩ :=
        processImages_missing_append catIdx imgInfo groups fs nm ids st
      cases herr : (processImages catIdx imgInfo groups fs nm ids st).2 with
      | some e => exact ⟨t1, ht1⟩
      | none =>
        obtain ⟨t2, ht2⟩ := processSplits_missing_append catIdx imgInfo groups
          fs rest (processImages catIdx imgInfo groups fs nm ids st).1
        exact ⟨t1 ++ t2, by rw [ht2, ht1, List.append_assoc]⟩

theorem processSplits_missing_mem (catIdx : List (ℤ × ℕ))
    (imgInfo : List (ℤ × Image)) (groups : List (ℤ × List Annotation))
    (fs : List String) {target : ℤ} {info : Image}
    (hinfo : dget? target imgInfo = some info)
    (hfs : info.file_name ∉ fs) :
    ∀ (splits : List (String × List ℤ)) (st : RunState),
      (∀ p ∈ splits, ∀ i ∈ p.2, goodId catIdx imgInfo groups fs i) →
      (∃ p ∈ splits, target ∈ p.2) →
      info.file_name ∈
        (processSplits catIdx imgInfo groups fs splits st).1.missing_images
  | [], _, _, hex => by
    obtain ⟨p, hp, -⟩ := hex
    simp at hp
  | (nm, ids) :: rest, st, hgood, hex => by
    simp only [processSplits]
    by_cases htarget : target ∈ ids
    · have hids : ids ≠ [] := by
        intro he
        rw [he] at htarget
        simp at htarget
      rw [if_neg hids]
      have hok := processImages_ok catIdx imgInfo groups fs nm ids st
        (fun i hi => hgood (nm, ids) (by simp) i hi)
      simp only [hok]
      have hmem1 := processImages_missing_mem catIdx imgInfo groups fs nm
        hinfo hfs ids st (fun i hi => hgood (nm, ids) (by simp) i hi) htarget
      obtain ⟨t, ht⟩ := processSplits_missing_append catIdx imgInfo groups fs
        rest (processImages catIdx imgInfo groups fs nm ids st).1
      rw [ht]
      exact List.mem_append_left _ hmem1
    · have hex' : ∃ p ∈ rest, target ∈ p.2 := by
        obtain ⟨p, hp, hmem⟩ := hex
        rcases List.mem_cons.mp hp with h | h
        · rw [h] at hmem
          exact absurd hmem htarget
        · exact ⟨p, h, hmem⟩
      by_cases hids : ids = []
      · rw [if_pos hids]
        exact processSplits_missing_mem catIdx imgInfo groups fs hinfo hfs
          rest st (fun p hp => hgood p (by simp [hp])) hex'
      · rw [if_neg hids]
        have hok := processImages_ok catIdx imgInfo groups fs nm ids st
          (fun i hi => hgood (nm, ids) (by simp) i hi)
        simp only [hok]
        exact processSplits_missing_mem catIdx imgInfo groups fs hinfo hfs
          rest _ (fun p hp => hgood p (by simp [hp])) hex'

theorem processSplits_no_label (catIdx : List (ℤ × ℕ))
    (imgInfo : List (ℤ × Image)) (groups : List (ℤ × List Annotation))
    (fs : List String) {target : ℤ} {info : Image}
    (hinfo : dget? target imgInfo = some info)
    (hfs : info.file_name ∉ fs) :
    ∀ (splits : List (String × List ℤ)) (st : RunState),
      (∀ s f L, Effect.writeLabel s target f L ∉ st.effects) →
      ∀ s f L, Effect.writeLabel s target f L ∉
        (processSplits catIdx imgInfo groups fs splits st).1.effects
  | [], st, hnot => by simpa [processSplits] using hnot
  | (nm, ids) :: rest, st, hnot => by
    simp only [processSplits]
    by_cases hids : ids = []
    · rw [if_pos hids]
      exact processSplits_no_label catIdx imgInfo groups fs hinfo hfs rest st
        hnot
    · rw [if_neg hids]
      have hnot1 := processImages_no_label catIdx imgInfo groups fs nm hinfo
        hfs ids st hnot
      cases herr : (processImages catIdx imgInfo groups fs nm ids st).2 with
      | some e => exact hnot1
      | none =>
        exact processSplits_no_label catIdx imgInfo groups fs hinfo hfs rest _
          hnot1

theorem copyImage_ne_mkdir (s f a b : String) :
    (Effect.copyImage s f = Effect.mkdir a b) = False := by simp

/-- Every run's effect trace begins with the six directory-creation
effects: `create_directory_structure(output_dir)` runs before ratio
validation, before the split, and before any per-image processing. -/
theorem coco_to_yolo_starts_with_mkdirs (fs : List String) (coco : CocoData)
    (t v te : ℚ) (seed : ℤ) :
    List.take 6 (coco_to_yolo fs coco t v te seed).1.effects =
      create_directory_structure := by
  have h6 : (6:ℕ) = create_directory_structure.length := rfl
  simp only [coco_to_yolo]
  cases hsp : split_dataset (randStream seed)
      (dkeys (image_to_annotations coco.annotations)) t v te with
  | error e => rw [h6]; exact List.take_left _ _
  | ok trip =>
    obtain ⟨tr, va, ts⟩ := trip
    obtain ⟨t1, ht1, -⟩ := processSplits_effects
      (category_id_to_index coco.categories) (image_id_to_info coco.images)
      (image_to_annotations coco.annotations) fs
      [("train", tr), ("valid", va), ("test", ts)]
      { effects := create_directory_structure, missing_images := [],
        copied_images := [] }
    rcases hP : processSplits (category_id_to_index coco.categories)
        (image_id_to_info coco.images) (image_to_annotations coco.annotations)
        fs [("train", tr), ("valid", va), ("test", ts)]
        { effects := create_directory_structure, missing_images := [],
          copied_images := [] } with ⟨st', r⟩
    rw [hP] at ht1
    cases r with
    | some e =>
      simp only [hP]
      rw [show st'.effects = create_directory_structure ++ t1 from ht1, h6]
      exact List.take_left _ _
    | none =>
      simp only [hP]
      rw [show st'.effects = create_directory_structure ++ t1 from ht1,
        List.append_assoc, h6]
      exact List.take_left _ _

/-- C5 (amended).  When the conversion aborts with a fatal error — as it
does on an annotation whose `image_id` or `category_id` fails to resolve
during processing — the output directory structure has **already** been
created (the trace's first six effects are the mkdirs), and artifacts of
earlier-processed images may also exist: there is no atomicity on error. -/
theorem coco_to_yolo_error_after_mkdirs (fs : List String) (coco : CocoData)
    (t v te : ℚ) (seed : ℤ) (e : String)
    (h : (coco_to_yolo fs coco t v te seed).2 = .error e) :
    List.take 6 (coco_to_yolo fs coco t v te seed).1.effects =
      create_directory_structure :=
  coco_to_yolo_starts_with_mkdirs fs coco t v te seed

/-- Witness for the amended C5: on the document whose only annotation
references the unknown image id 5, the run aborts with a `KeyError` and the
six directories nevertheless exist in the trace. -/
theorem coco_to_yolo_error_after_mkdirs_witness :
    List.take 6 (coco_to_yolo [] danglingCoco (8/10) (2/10) 0 42).1.effects =
      create_directory_structure :=
  coco_to_yolo_error_after_mkdirs [] danglingCoco (8/10) (2/10) 0 42
    "KeyError: image_id"
    (by norm_num [coco_to_yolo, danglingCoco, category_id_to_index,
      image_id_to_info, image_to_annotations, dinsert, dget?, dkeys,
      split_dataset, listCopy, pyShuffle, shuffleAux, pyInt, pySliceTo,
      pySliceFrom, pySlice, pyIdx, processSplits, processImages,
      processImage, create_directory_structure, List.enum, List.enumFrom])

/-- Counterexample to C5 as stated: on `danglingCoco` the run does abort
with the fatal lookup error, but the effect trace is **not** empty — all
six output directories were created before the failure, refuting "no
output artifact exists". -/
theorem coco_to_yolo_error_counterexample :
    (coco_to_yolo [] danglingCoco (8/10) (2/10) 0 42).2 =
      .error "KeyError: image_id" ∧
    (coco_to_yolo [] danglingCoco (8/10) (2/10) 0 42).1.effects =
      create_directory_structure ∧
    create_directory_structure ≠ [] := by
  refine ⟨?_, ?_, by decide⟩ <;>
    norm_num [coco_to_yolo, danglingCoco, category_id_to_index,
      image_id_to_info, image_to_annotations, dinsert, dget?, dkeys,
      split_dataset, listCopy, pyShuffle, shuffleAux, pyInt, pySliceTo,
      pySliceFrom, pySlice, pyIdx, processSplits, processImages,
      processImage, create_directory_structure, List.enum, List.enumFrom]

/-- C9 (amended).  With `test_ratio = 0` the manifest carries no `test` key
and no image copy or label file is ever produced under a `test` split — but
the empty `test/images` and `test/labels` directories **are** created, since
`create_directory_structure` makes all three split directories
unconditionally. -/
theorem coco_to_yolo_no_test (fs : List String) (coco : CocoData)
    (t v : ℚ) (seed : ℤ) {te : ℚ} (hte : te = 0) :
    Effect.mkdir "test" "images" ∈
      (coco_to_yolo fs coco t v te seed).1.effects ∧
    Effect.mkdir "test" "labels" ∈
      (coco_to_yolo fs coco t v te seed).1.effects ∧
    (∀ m, Effect.writeYaml m ∈ (coco_to_yolo fs coco t v te seed).1.effects →
      m.test = none) ∧
    (∀ f, Effect.copyImage "test" f ∉
      (coco_to_yolo fs coco t v te seed).1.effects) ∧
    (∀ i f L, Effect.writeLabel "test" i f L ∉
      (coco_to_yolo fs coco t v te seed).1.effects) := by
  subst hte
  simp only [coco_to_yolo]
  cases hsp : split_dataset (randStream seed)
      (dkeys (image_to_annotations coco.annotations)) t v 0 with
  | error e =>
    refine ⟨by simp [create_directory_structure],
      by simp [create_directory_structure], ?_, ?_, ?_⟩
    · intro m hm; simp [create_directory_structure] at hm
    · intro f hm; simp [create_directory_structure] at hm
    · intro i f L hm; simp [create_directory_structure] at hm
  | ok trip =>
    obtain ⟨tr, va, ts⟩ := trip
    have hts : ts = [] := split_dataset_test_nil rfl hsp
    subst hts
    obtain ⟨t1, ht1, htag⟩ := processSplits_effects
      (category_id_to_index coco.categories) (image_id_to_info coco.images)
      (image_to_annotations coco.annotations) fs
      [("train", tr), ("valid", va), ("test", [])]
      { effects := create_directory_structure, missing_images := [],
        copied_images := [] }
    rcases hP : processSplits (category_id_to_index coco.categories)
        (image_id_to_info coco.images) (image_to_annotations coco.annotations)
        fs [("train", tr), ("valid", va), ("test", [])]
        { effects := create_directory_structure, missing_images := [],
          copied_images := [] } with ⟨st', r⟩
    rw [hP] at ht1
    have hmk1 : Effect.mkdir "test" "images" ∈ st'.effects := by
      rw [ht1]; simp [create_directory_structure]
    have hmk2 : Effect.mkdir "test" "labels" ∈ st'.effects := by
      rw [ht1]; simp [create_directory_structure]
    have hyaml : ∀ m, Effect.writeYaml m ∉ st'.effects := by
      intro m hm
      rw [ht1] at hm
      rcases List.mem_append.mp hm with h | h
      · simp [create_directory_structure] at h
      · obtain ⟨p, hp, hne, hor⟩ := htag _ h
        rcases hor with ⟨f, he⟩ | ⟨i, f, L, hi, he⟩ <;> exact Effect.noConfusion he
    have hcopy : ∀ f, Effect.copyImage "test" f ∉ st'.effects := by
      intro f hm
      rw [ht1] at hm
      rcases List.mem_append.mp hm with h | h
      · simp [create_directory_structure] at h
      · obtain ⟨p, hp, hne, hor⟩ := htag _ h
        rcases hor with ⟨f', he⟩ | ⟨i, f', L, hi, he⟩
        · injection he with h1 h2
          rcases (show p = ("train", tr) ∨ p = ("valid", va) ∨
              p = ("test", []) by simpa using hp) with rfl | rfl | rfl
          · exact absurd (show ("test":String) = "train" from h1) (by decide)
          · exact absurd (show ("test":String) = "valid" from h1) (by decide)
          · exact hne rfl
        · exact Effect.noConfusion he
    have hlab : ∀ i f L, Effect.writeLabel "test" i f L ∉ st'.effects := by
      intro i f L hm
      rw [ht1] at hm
      rcases List.mem_append.mp hm with h | h
      · simp [create_directory_structure] at h
      · obtain ⟨p, hp, hne, hor⟩ := htag _ h
        rcases hor with ⟨f', he⟩ | ⟨i', f', L', hi', he⟩
        · exact Effect.noConfusion he
        · injection he with h1 h2
          rcases (show p = ("train", tr) ∨ p = ("valid", va) ∨
              p = ("test", []) by simpa using hp) with rfl | rfl | rfl
          · exact absurd (show ("test":String) = "train" from h1) (by decide)
          · exact absurd (show ("test":String) = "valid" from h1) (by decide)
          · exact hne rfl
    cases r with
    | some e =>
      simp only [hP]
      exact ⟨hmk1, hmk2, fun m hm => absurd hm (hyaml m), hcopy, hlab⟩
    | none =>
      simp only [hP]
      refine ⟨List.mem_append_left _ hmk1, List.mem_append_left _ hmk2,
        ?_, ?_, ?_⟩
      · intro m hm
        rcases List.mem_append.mp hm with h | h
        · exact absurd h (hyaml m)
        · rw [List.mem_singleton] at h
          injection h with hm'
          rw [hm']
          simp
      · intro f hm
        rcases List.mem_append.mp hm with h | h
        · exact hcopy f h
        · rw [List.mem_singleton] at h
          exact Effect.noConfusion h
      · intro i f L hm
        rcases List.mem_append.mp hm with h | h
        · exact hlab i f L h
        · rw [List.mem_singleton] at h
          exact Effect.noConfusion h

/-- Witness for the amended C9 on a concrete full run (one image, ratios
(1, 0, 0)): the test directories appear in the trace, yet nothing is
copied or labelled under `test`. -/
theorem coco_to_yolo_no_test_witness :
    Effect.mkdir "test" "images" ∈
      (coco_to_yolo ["a.jpg"] oneImageCoco 1 0 0 42).1.effects ∧
    Effect.copyImage "test" "a.jpg" ∉
      (coco_to_yolo ["a.jpg"] oneImageCoco 1 0 0 42).1.effects ∧
    Effect.writeLabel "test" 5 "a.txt" [] ∉
      (coco_to_yolo ["a.jpg"] oneImageCoco 1 0 0 42).1.effects := by
  have h := coco_to_yolo_no_test ["a.jpg"] oneImageCoco 1 0 42 rfl
  exact ⟨h.1, h.2.2.2.1 "a.jpg", h.2.2.2.2 5 "a.txt" []⟩

/-- Counterexample to C9 as stated: a full run with `test_ratio = 0` still
creates the `test/images` directory — something named `test` does appear
among the output artifacts. -/
theorem coco_to_yolo_no_test_counterexample :
    Effect.mkdir "test" "images" ∈
      (coco_to_yolo ["a.jpg"] oneImageCoco 1 0 0 42).1.effects := by
  norm_num [coco_to_yolo, oneImageCoco, category_id_to_index,
    image_id_to_info, image_to_annotations, dinsert, dget?, dkeys,
    split_dataset, listCopy, pyShuffle, shuffleAux, pyInt, pySliceTo,
    pySliceFrom, pySlice, pyIdx, processSplits, processImages, processImage,
    imageLabelLines, annotationLines, labelFileName, splitextBase,
    create_directory_structure, List.enum, List.enumFrom, copyImage_ne_mkdir]

/-- C8.  For a well-formed document, an image assigned to a split whose
source file is not present in the image directory is recorded in
`missing_images`, gets **no** label file (no `writeLabel` effect carries its
image id), and the run still completes successfully. -/
theorem coco_to_yolo_missing_image (fs : List String) (coco : CocoData)
    (t v te : ℚ) (seed : ℤ) (img : Image) (tr va ts : List ℤ)
    (hwf : WellFormed coco)
    (hnd : (coco.images.map Image.id).Nodup)
    (himg : img ∈ coco.images)
    (hmiss : img.file_name ∉ fs)
    (hsplit : split_dataset (randStream seed)
      (dkeys (image_to_annotations coco.annotations)) t v te =
      .ok (tr, va, ts))
    (hassigned : img.id ∈ tr ++ va ++ ts) :
    (coco_to_yolo fs coco t v te seed).2 = .ok () ∧
    img.file_name ∈ (coco_to_yolo fs coco t v te seed).1.missing_images ∧
    ∀ s f L, Effect.writeLabel s img.id f L ∉
      (coco_to_yolo fs coco t v te seed).1.effects := by
  have hinfo : dget? img.id (image_id_to_info coco.images) = some img :=
    image_id_to_info_lookup hnd himg
  obtain ⟨hsub1, hsub2, hsub3⟩ := split_dataset_ok_sub hsplit
  have hgoodAll : ∀ p ∈ [("train", tr), ("valid", va), ("test", ts)],
      ∀ i ∈ p.2, goodId (category_id_to_index coco.categories)
        (image_id_to_info coco.images)
        (image_to_annotations coco.annotations) fs i := by
    intro p hp i hi
    apply goodId_of_wf coco fs i hwf
    rcases (show p = ("train", tr) ∨ p = ("valid", va) ∨ p = ("test", ts) by
      simpa using hp) with rfl | rfl | rfl
    · exact hsub1 hi
    · exact hsub2 hi
    · exact hsub3 hi
  simp only [coco_to_yolo, hsplit]
  rcases hP : processSplits (category_id_to_index coco.categories)
      (image_id_to_info coco.images) (image_to_annotations coco.annotations)
      fs [("train", tr), ("valid", va), ("test", ts)]
      { effects := create_directory_structure, missing_images := [],
        copied_images := [] } with ⟨st', r⟩
  have hok := processSplits_ok (category_id_to_index coco.categories)
    (image_id_to_info coco.images) (image_to_annotations coco.annotations)
    fs [("train", tr), ("valid", va), ("test", ts)]
    { effects := create_directory_structure, missing_images := [],
      copied_images := [] } hgoodAll
  rw [hP] at hok
  have hr : r = none := hok
  subst hr
  simp only [hP]
  have hex : ∃ p ∈ [("train", tr), ("valid", va), ("test", ts)],
      img.id ∈ p.2 := by
    rcases List.mem_append.mp hassigned with h12 | h3
    · rcases List.mem_append.mp h12 with h1 | h2
      · exact ⟨("train", tr), by simp, h1⟩
      · exact ⟨("valid", va), by simp, h2⟩
    · exact ⟨("test", ts), by simp, h3⟩
  have hmem := processSplits_missing_mem (category_id_to_index coco.categories)
    (image_id_to_info coco.images) (image_to_annotations coco.annotations)
    fs hinfo hmiss [("train", tr), ("valid", va), ("test", ts)]
    { effects := create_directory_structure, missing_images := [],
      copied_images := [] } hgoodAll hex
  rw [hP] at hmem
  have hnot0 : ∀ s f L,
      Effect.writeLabel s img.id f L ∉ create_directory_structure := by
    intro s f L hm
    simp [create_directory_structure] at hm
  have hnl := processSplits_no_label (category_id_to_index coco.categories)
    (image_id_to_info coco.images) (image_to_annotations coco.annotations)
    fs hinfo hmiss [("train", tr), ("valid", va), ("test", ts)]
    { effects := create_directory_structure, missing_images := [],
      copied_images := [] } hnot0
  rw [hP] at hnl
  refine ⟨by trivial, ?_, ?_⟩
  · simpa using hmem
  · intro s f L hm
    rcases List.mem_append.mp hm with h | h
    · exact hnl s f L h
    · rw [List.mem_singleton] at h
      exact Effect.noConfusion h

/-- Witness for C8 on a concrete run: image 5's file `a.jpg` is absent
from the source directory; the run completes, records the file as missing,
and writes no label for image 5. -/
theorem coco_to_yolo_missing_image_witness :
    (coco_to_yolo [] oneImageCoco 1 0 0 42).2 = .ok () ∧
    "a.jpg" ∈ (coco_to_yolo [] oneImageCoco 1 0 0 42).1.missing_images ∧
    Effect.writeLabel "train" 5 "a.txt" [] ∉
      (coco_to_yolo [] oneImageCoco 1 0 0 42).1.effects := by
  have h := coco_to_yolo_missing_image [] oneImageCoco 1 0 0 42
    { id := 5, file_name := "a.jpg", width := 2, height := 2 } [5] [] []
    (by decide) (by decide) (by simp [oneImageCoco]) (by decide)
    (by norm_num [oneImageCoco, image_to_annotations, dinsert, dget?, dkeys,
      split_dataset, listCopy, pyShuffle, shuffleAux, pyInt, pySliceTo,
      pySliceFrom, pySlice, pyIdx])
    (by decide)
  exact ⟨h.1, h.2.1, h.2.2 "train" "a.txt" []⟩

end Coco
